import Mathlib

/-!
Verification of the reactive forms engine (field tree, registration, bulk
operations, list identity recycling, submission).

The embedding models the field cell store as a total function from qualified
paths to `FieldState` cells (recoil atoms are created lazily with a default
state, so every path always reads as some cell).  A qualified dotted name
`"a.b.c"` is represented by its list of segments `["a", "b", "c"]`: the source
always splits names on `"."` and re-joins contiguous segment prefixes, and
segments produced by a split never contain a dot, so the representation is
faithful.
-/

namespace Forms

/-- Runtime tag of a field cell (types.ts `FieldType`). -/
inductive FieldType where
  | field
  | map
  | list
deriving DecidableEq, Repr

/-- Qualified path: the dot-separated segments of a field name. -/
abbrev Path := List String

/-- Validation outcome, carrying the two aggregate flags the form reads
(`isValid` / `isValidStrict`). -/
structure ValidationResult where
  isValid : Bool
  isValidStrict : Bool
deriving DecidableEq, Repr

/-- A JS value handed to `setValues` / `setInitialValues`: either an atomic
value or an object, encoded cons-style as a list of key/value entries
(`Object.entries` order). `Object.entries` of an atom is empty. -/
inductive Val (V : Type) where
  | atom (a : V)
  | nilObj
  | consObj (k : String) (v : Val V) (rest : Val V)
deriving DecidableEq

/-- One reactive cell (types.ts `FieldState`).  The source keeps a single
record shape for all three variants (coercions spread the previous state), so
the embedding does the same. -/
structure FieldState (V : Type) where
  type : FieldType
  value : Val V
  initialValue : Val V
  touched : Bool
  touchedAfterSubmit : Bool
  validator : Val V → ValidationResult
  validation : ValidationResult
  children : List Path

/-- The field cell store of one form: every path reads as a cell. -/
abbrev Store (V : Type) := Path → FieldState V

variable {V : Type}

/-- `set($field(fieldId(formId, p)), f)`: update the cell at path `p`. -/
def setCell (σ : Store V) (p : Path) (f : FieldState V → FieldState V) : Store V :=
  fun q => if q = p then f (σ q) else σ q

/-- A `forEach` of `set` calls: apply a list of per-path updaters in order. -/
def forEachSet (σ : Store V) (L : List (Path × (FieldState V → FieldState V))) : Store V :=
  L.foldl (fun acc u => setCell acc u.1 u.2) σ

/-- part_000 `onFieldTypeOnly`: guard an updater so it runs only on cells of
variant `field`. -/
def onFieldTypeOnly (f : FieldState V → FieldState V) : FieldState V → FieldState V :=
  fun s => if s.type = .field then f s else s

/-- internalHooks `take`. -/
def take (n : Nat) (xs : List α) : List α := xs.take n

/-- internalHooks `dropRight`: `xs.slice(0, xs.length - n)`. -/
def dropRight (n : Nat) (xs : List α) : List α := xs.take (xs.length - n)

/-- internalHooks `nestedName`: the dotted join of the first `i` segments,
i.e. the length-`i` prefix path. -/
def nestedName (i : Nat) (ns : List String) : Path := take i ns

/-- internalHooks `addOnlyIfUnique`. -/
def addOnlyIfUnique (xs : List Path) (x : Path) : List Path :=
  if x ∈ xs then xs else xs ++ [x]

/-- First `set` of the registration loop: coerce a plain field to a map,
leave maps and lists alone. -/
def coerceUpd : FieldState V → FieldState V :=
  fun s => if s.type = .field then { s with type := .map } else s

/-- Second `set` of the registration loop: on a structural node, append the
child name if not already present. -/
def childUpd (c : Path) : FieldState V → FieldState V :=
  fun s => if s.type ≠ .field then { s with children := addOnlyIfUnique s.children c } else s

/-- The two `set` calls of one iteration of the loop body of
`useFieldRegistration.add`, as path/updater pairs. -/
def pairsOf (ns : List String) (i : Nat) : List (Path × (FieldState V → FieldState V)) :=
  [(nestedName (i + 1) ns, coerceUpd),
   (nestedName (i + 1) ns, childUpd (nestedName (i + 2) ns))]

/-- The cell updates performed for one registered name: for every proper
prefix `i + 1` of the segments, the two `set` calls of the loop body of
`useFieldRegistration.add`. -/
def regUpdsOfName (ns : List String) : List (Path × (FieldState V → FieldState V)) :=
  (List.range (ns.length - 1)).flatMap (pairsOf ns)

/-- The combined per-cell effect of one loop iteration of
`useFieldRegistration.add` (second `set` after the first). -/
def stepFun (ns : List String) (i : Nat) : FieldState V → FieldState V :=
  fun s => childUpd (nestedName (i + 2) ns) (coerceUpd s)

/-- Form-level state: the cell store plus the form record's `fieldIds`. -/
@[ext]
structure FormSt (V : Type) where
  cells : Store V
  fieldIds : List String

/-- `useFieldRegistration.add`: per name, create/extend the intermediate
structural nodes, then append the new top-level segments to `fieldIds`
(filtering against the set of already-registered ids, built once). -/
def regAdd (σF : FormSt V) (names : List (List String)) : FormSt V :=
  let toAdd := names.map fun ns => ns.headD ""
  { cells := forEachSet σF.cells (names.flatMap regUpdsOfName)
    fieldIds := σF.fieldIds ++ toAdd.filter fun id => decide (id ∉ σF.fieldIds) }

/-- Cell effect of `useFieldRegistration.remove`: for every dotted name
(two or more segments), detach it from its parent's children. -/
def regRemoveCells (names : List Path) (σ : Store V) : Store V :=
  names.foldl (fun acc n =>
    if 2 ≤ n.length then
      setCell acc (dropRight 1 n)
        (fun s => { s with children := s.children.filter fun c => decide (c ≠ n) })
    else acc) σ

/-- `useFieldRegistration.remove`: drop the names from `fieldIds`, and for
every dotted name detach it from its parent's children. -/
def regRemove (σF : FormSt V) (names : List Path) : FormSt V :=
  { cells := regRemoveCells names σF.cells
    fieldIds := σF.fieldIds.filter fun id => decide ([id] ∉ names) }

/-- Default `equal` option of `setValues`. -/
def alwaysFalse : Val V → Val V → Bool := fun _ _ => false

/-- The `field`-branch updater of `useForm.setValues`: keep the state when
`equal` accepts the old value, else assign and (if `validate`) re-run the
validator. -/
def assignUpd (validate : Bool) (equal : Val V → Val V → Bool) (v : Val V) :
    FieldState V → FieldState V :=
  fun s =>
    if equal s.value v then s
    else { s with value := v
                  validation := if validate then s.validator v else s.validation }

/-- One step of the recursive `updater` of `useForm.setValues`, for a single
entry `(id, v)` of the values dict: on a `field` cell assign the value; on a
`map` cell recurse into the object's entries, each under `id.k`; on a `list`
cell do nothing (unsupported).  The `map` branch walks the entries by
re-entering on the tail at the same `id`; no assignment changes a cell's
`type` (proved in `setValsEntry_type` below), so the re-dispatch on the
node's type matches the source's single `forEach` over the entries. -/
def setValsEntry (validate : Bool) (equal : Val V → Val V → Bool) :
    Path → Val V → Store V → Store V
  | id, v, σ =>
    if (σ id).type = .field then setCell σ id (assignUpd validate equal v)
    else if (σ id).type = .map then
      match v with
      | .atom _ => σ
      | .nilObj => σ
      | .consObj k vk rest =>
        setValsEntry validate equal id rest (setValsEntry validate equal (id ++ [k]) vk σ)
    else σ

/-- `useForm.setValues`: apply the updater to every entry of the dict in key
order. -/
def setValuesOp (d : List (Path × Val V)) (validate : Bool)
    (equal : Val V → Val V → Bool) (σ : Store V) : Store V :=
  d.foldl (fun acc e => setValsEntry validate equal e.1 e.2 acc) σ

/-- The `field`-branch updater of `useForm.setInitialValues`. -/
def initUpd (v : Val V) : FieldState V → FieldState V :=
  fun s => { s with initialValue := v }

/-- One step of the recursive `updater` of `useForm.setInitialValues`: same
traversal as `setValsEntry`, but a `field` cell only has its `initialValue`
replaced. -/
def setInitValsEntry : Path → Val V → Store V → Store V
  | id, v, σ =>
    if (σ id).type = .field then setCell σ id (initUpd v)
    else if (σ id).type = .map then
      match v with
      | .atom _ => σ
      | .nilObj => σ
      | .consObj k vk rest => setInitValsEntry id rest (setInitValsEntry (id ++ [k]) vk σ)
    else σ

/-- `useForm.setInitialValues`. -/
def setInitialValuesOp (d : List (Path × Val V)) (σ : Store V) : Store V :=
  d.foldl (fun acc e => setInitValsEntry e.1 e.2 acc) σ

/-- Modelled from the spec: `createNamedValidation` (selectors.ts, not under
src/) wraps an externally supplied result under a field name; the name tag is
not observable through the aggregate flags the claims read, so the wrapper
returns the result unchanged. -/
def namedValidation (_p : Path) (r : ValidationResult) : ValidationResult := r

/-- `useForm.setErrors` (no `onFieldTypeOnly` guard in the source). -/
def setErrorsOp (errs : List (Path × ValidationResult)) (σ : Store V) : Store V :=
  forEachSet σ (errs.map fun e =>
    (e.1, fun s => { s with validation := namedValidation e.1 e.2 }))

/-- Per-cell updater of `useForm.setTouched`. -/
def touchUpd (b : Bool) : FieldState V → FieldState V := fun s => { s with touched := b }

/-- `useForm.setTouched`. -/
def setTouchedOp (d : List (Path × Bool)) (σ : Store V) : Store V :=
  forEachSet σ (d.map fun e => (e.1, onFieldTypeOnly (touchUpd e.2)))

/-- Per-cell updater of `useForm.resetTouched`. -/
def untouchUpd : FieldState V → FieldState V :=
  fun s => { s with touched := false, touchedAfterSubmit := false }

/-- `useForm.resetTouched`, applied to the snapshot's `allFieldIds`. -/
def resetTouchedOp (ids : List Path) (σ : Store V) : Store V :=
  forEachSet σ (ids.map fun p => (p, onFieldTypeOnly untouchUpd))

/-- Per-cell updater of `useForm.setAllToTouched`. -/
def touchAllUpd : FieldState V → FieldState V :=
  fun s => { s with touched := true, touchedAfterSubmit := true }

/-- `useForm.setAllToTouched`, applied to the snapshot's `allFieldIds`. -/
def setAllToTouchedOp (ids : List Path) (σ : Store V) : Store V :=
  forEachSet σ (ids.map fun p => (p, onFieldTypeOnly touchAllUpd))

/-- Per-cell updater of `useForm.reset`: restore `initialValue`, clear the
touched flags, re-run the validator on the restored value. -/
def resetUpd : FieldState V → FieldState V := fun s =>
  { s with value := s.initialValue
           touched := false
           touchedAfterSubmit := false
           validation := s.validator s.initialValue }

/-- `useForm.reset`, applied to the snapshot's `allFieldIds`. -/
def resetFieldsOp (ids : List Path) (σ : Store V) : Store V :=
  forEachSet σ (ids.map fun p => (p, onFieldTypeOnly resetUpd))

/-- Per-cell updater of `useForm.revalidate`. -/
def revalUpd : FieldState V → FieldState V :=
  fun s => { s with validation := s.validator s.value }

/-- `useForm.revalidate`, applied to the targeted field ids. -/
def revalidateFieldsOp (ids : List Path) (σ : Store V) : Store V :=
  forEachSet σ (ids.map fun p => (p, onFieldTypeOnly revalUpd))

/-- `useForm.clear`: recoil-reset every targeted cell to the default state. -/
def clearCellsOp (dflt : FieldState V) (ids : List Path) (σ : Store V) : Store V :=
  forEachSet σ (ids.map fun p => (p, fun _ => dflt))

/-- Modelled from the spec: the `$allFieldIds` selector (selectors.ts, not
under src/) performs a full tree traversal from every top-level id down
through `Map`/`List` children and produces every leaf's fully-qualified path.
`fuel` bounds the recursion depth (the reactive runtime would diverge on a
cyclic children graph, which registration never creates). -/
def allFieldIdsAux (σ : Store V) : Nat → Path → List Path
  | 0, _ => []
  | fuel + 1, p =>
    if (σ p).type = .field then [p]
    else (σ p).children.flatMap (allFieldIdsAux σ fuel)

/-- Modelled from the spec: `$allFieldIds` over the form's top-level ids. -/
def allFieldIds (σ : Store V) (tops : List Path) (fuel : Nat) : List Path :=
  tops.flatMap (allFieldIdsAux σ fuel)

/-- The `isValidProp` configuration of `useForm`. -/
inductive IsValidProp where
  | isValid
  | isValidStrict
deriving DecidableEq

/-- `bag.validation[isValidProp]`. -/
def selectValidProp (p : IsValidProp) (r : ValidationResult) : Bool :=
  match p with
  | .isValid => r.isValid
  | .isValidStrict => r.isValidStrict

/-- Modelled from the spec: `$formValidation` (selectors.ts, not under src/)
combines every leaf's validation flags by logical AND across `allFieldIds`. -/
def formValidation (σ : Store V) (tops : List Path) (fuel : Nat) : ValidationResult :=
  { isValid := (allFieldIds σ tops fuel).all fun p => (σ p).validation.isValid
    isValidStrict := (allFieldIds σ tops fuel).all fun p => (σ p).validation.isValidStrict }

/-- Result of `useForm.submit`: the store after the call together with the
bags passed to `onSubmitInvalid` and to `onSubmit` (each callback invocation
records the bag's validation component). -/
structure SubmitOutcome (V : Type) where
  store : Store V
  invalidCalls : List ValidationResult
  validCalls : List ValidationResult

/-- `useForm.submit`: gather the bag; if the configured aggregate flag is
false, mark everything touched, call `onSubmitInvalid` once and stop;
otherwise call `onSubmit` once. -/
def submitOp (prop : IsValidProp) (σ : Store V) (tops : List Path) (fuel : Nat) :
    SubmitOutcome V :=
  let validation := formValidation σ tops fuel
  if selectValidProp prop validation then
    { store := σ, invalidCalls := [], validCalls := [validation] }
  else
    { store := setAllToTouchedOp (allFieldIds σ tops fuel) σ
      invalidCalls := [validation], validCalls := [] }

/-- part_001 `last`, on the segments of a name (JS reads `undefined` past the
end; child names are never empty, the `""` default is out of scope). -/
def lastSeg (p : Path) : String := p.getLastD ""

/-- Modelled from the spec: `uid` (uid.ts, not under src/) synthesizes a
fresh globally-unique id; modelled as a counter rendered to a string. -/
def uidStr (c : Nat) : String := "uid-" ++ toString c

/-- `useList.removeName` target: insert into the `namesToReuse` set
(JS `Set.add`: no-op when present, else append in insertion order). -/
def poolAdd (pool : List String) (s : String) : List String :=
  if s ∈ pool then pool else pool ++ [s]

/-- `useList.generateNewName`: destructure the first (insertion-ordered)
element of the reuse set, delete it, and return `<listPath>.<id>`.  The
source's `reusedName || uid()` treats both `undefined` (empty pool) and the
empty string as falsy, so an empty-string pooled id is discarded and a fresh
id synthesized in its place.  Returns the new name, the remaining pool, and
the uid counter. -/
def generateNewName (lp : Path) (pool : List String) (c : Nat) :
    Path × List String × Nat :=
  match pool with
  | [] => (lp ++ [uidStr c], [], c + 1)
  | r :: rest =>
    if r = "" then (lp ++ [uidStr c], rest, c + 1) else (lp ++ [r], rest, c)

/-- `useList.add`: generate a (possibly recycled) child name and append it to
the list node's children.  Returns the new name, the store, the pool and the
counter. -/
def listAdd (lp : Path) (σ : Store V) (pool : List String) (c : Nat) :
    Path × Store V × List String × Nat :=
  let res := generateNewName lp pool c
  (res.1, setCell σ lp (fun s => { s with children := s.children ++ [res.1] }),
   res.2.1, res.2.2)

/-- `useList.addAt`: splice the generated name in at `i` (JS `splice` clamps
an out-of-range index to the end). -/
def listAddAt (lp : Path) (i : Nat) (σ : Store V) (pool : List String) (c : Nat) :
    Path × Store V × List String × Nat :=
  let res := generateNewName lp pool c
  (res.1,
   setCell σ lp (fun s =>
     { s with children := s.children.take i ++ [res.1] ++ s.children.drop i }),
   res.2.1, res.2.2)

/-- `useList.remove`: drop the child at index `i` (filtering on the index)
and release its last segment into the reuse pool. -/
def listRemove (lp : Path) (i : Nat) (σ : Store V) (pool : List String) :
    Store V × List String :=
  (setCell σ lp (fun s => { s with children := s.children.eraseIdx i }),
   match (σ lp).children[i]? with
   | some n => poolAdd pool (lastSeg n)
   | none => pool)

/-- `useList.removeAll`: empty the children, releasing every last segment in
order. -/
def listRemoveAll (lp : Path) (σ : Store V) (pool : List String) :
    Store V × List String :=
  (setCell σ lp (fun s => { s with children := [] }),
   (σ lp).children.foldl (fun acc n => poolAdd acc (lastSeg n)) pool)

/-- `useList.swap` on the children array: read `children[a]` and
`children[b]`, then map positions `a` and `b` to the other's element.  A JS
out-of-range read yields `undefined`, which a `List Path` cannot store; the
embedding keeps the original element in that case (the claims only concern
in-range indices). -/
def swapChildren (l : List Path) (a b : Nat) : List Path :=
  l.mapIdx fun i x => if i = a then (l[b]?).getD x else if i = b then (l[a]?).getD x else x

/-- `useList.swap`. -/
def listSwap (lp : Path) (a b : Nat) (σ : Store V) : Store V :=
  setCell σ lp fun s => { s with children := swapChildren s.children a b }

/-- `useList.move` on the children array (same `undefined` caveat as
`swapChildren` for an out-of-range `a`). -/
def moveChildren (l : List Path) (a b : Nat) : List Path :=
  let temp := l.take a ++ l.drop (a + 1)
  temp.take b ++ [(l[a]?).getD []] ++ temp.drop b

/-- `useList.move`. -/
def listMove (lp : Path) (a b : Nat) (σ : Store V) : Store V :=
  setCell σ lp fun s => { s with children := moveChildren s.children a b }

/-- The form's top-level ids as paths, as traversal roots. -/
def topPaths (ids : List String) : List Path := ids.map fun id => [id]

/-- Every mutation the engine performs on a form's state.  List operations
carry the child name generated for them (the reuse pool does not affect the
cells); operations that read `$allFieldIds` carry the traversal fuel. -/
inductive Op (V : Type) where
  | opRegAdd (names : List (List String))
  | opRegRemove (names : List Path)
  | opSetValues (d : List (Path × Val V)) (validate : Bool) (equal : Val V → Val V → Bool)
  | opSetInitialValues (d : List (Path × Val V))
  | opSetErrors (errs : List (Path × ValidationResult))
  | opSetTouched (d : List (Path × Bool))
  | opResetTouched (fuel : Nat)
  | opSetAllToTouched (fuel : Nat)
  | opReset (fuel : Nat)
  | opRevalidate (ids : List Path) (fuel : Nat)
  | opClear (fuel : Nat)
  | opSubmit (prop : IsValidProp) (fuel : Nat)
  | opListMount (name : List String)
  | opListAdd (lp : Path) (n : Path)
  | opListAddAt (lp : Path) (i : Nat) (n : Path)
  | opListRemove (lp : Path) (i : Nat)
  | opListRemoveAll (lp : Path)
  | opListSwap (lp : Path) (a b : Nat)
  | opListMove (lp : Path) (a b : Nat)

/-- Apply one operation to the form state.  `dflt` is the default cell state
a recoil reset restores (a plain field).  `opListMount` is the `useList`
mount effect: register the name, then set the node's type to `list`. -/
def applyOp (dflt : FieldState V) (op : Op V) (σF : FormSt V) : FormSt V :=
  match op with
  | .opRegAdd names => regAdd σF names
  | .opRegRemove names => regRemove σF names
  | .opSetValues d validate equal => { σF with cells := setValuesOp d validate equal σF.cells }
  | .opSetInitialValues d => { σF with cells := setInitialValuesOp d σF.cells }
  | .opSetErrors errs => { σF with cells := setErrorsOp errs σF.cells }
  | .opSetTouched d => { σF with cells := setTouchedOp d σF.cells }
  | .opResetTouched fuel =>
    { σF with cells :=
        resetTouchedOp (allFieldIds σF.cells (topPaths σF.fieldIds) fuel) σF.cells }
  | .opSetAllToTouched fuel =>
    { σF with cells :=
        setAllToTouchedOp (allFieldIds σF.cells (topPaths σF.fieldIds) fuel) σF.cells }
  | .opReset fuel =>
    { σF with cells :=
        resetFieldsOp (allFieldIds σF.cells (topPaths σF.fieldIds) fuel) σF.cells }
  | .opRevalidate ids fuel =>
    let targets := if ids.isEmpty then allFieldIds σF.cells (topPaths σF.fieldIds) fuel else ids
    { σF with cells := revalidateFieldsOp targets σF.cells }
  | .opClear fuel =>
    { cells := clearCellsOp dflt (allFieldIds σF.cells (topPaths σF.fieldIds) fuel) σF.cells
      fieldIds := [] }
  | .opSubmit prop fuel =>
    { σF with cells := (submitOp prop σF.cells (topPaths σF.fieldIds) fuel).store }
  | .opListMount name =>
    let σF1 := regAdd σF [name]
    { σF1 with cells := setCell σF1.cells name fun s => { s with type := .list } }
  | .opListAdd lp n =>
    { σF with cells := setCell σF.cells lp fun s => { s with children := s.children ++ [n] } }
  | .opListAddAt lp i n =>
    { σF with cells := setCell σF.cells lp fun s =>
        { s with children := s.children.take i ++ [n] ++ s.children.drop i } }
  | .opListRemove lp i =>
    { σF with cells := setCell σF.cells lp fun s =>
        { s with children := s.children.eraseIdx i } }
  | .opListRemoveAll lp =>
    { σF with cells := setCell σF.cells lp fun s => { s with children := [] } }
  | .opListSwap lp a b => { σF with cells := listSwap lp a b σF.cells }
  | .opListMove lp a b => { σF with cells := listMove lp a b σF.cells }

/-!  ## Concrete states used to evaluate the theorems on closed inputs  -/

/-- The default cell a lazily-created atom holds (spec: a cell is created as
a plain field); concrete instance over `Nat` values. -/
def baseCell : FieldState Nat :=
  { type := .field
    value := .atom 0
    initialValue := .atom 0
    touched := false
    touchedAfterSubmit := false
    validator := fun _ => { isValid := true, isValidStrict := true }
    validation := { isValid := true, isValidStrict := true }
    children := [] }

/-- A form whose node `a` was already created as a `List`. -/
def cexC1Form : FormSt Nat :=
  { cells := fun q => if q = ["a"] then { baseCell with type := .list } else baseCell
    fieldIds := ["a"] }

/-- A pristine form: every cell is a plain default field. -/
def witC1Form : FormSt Nat :=
  { cells := fun _ => baseCell, fieldIds := [] }

/-- A store with a single always-invalid field `x`. -/
def witC3Store : Store Nat := fun q =>
  if q = ["x"] then
    { baseCell with
        validator := fun _ => { isValid := false, isValidStrict := false }
        validation := { isValid := false, isValidStrict := false } }
  else baseCell

/-- A store with a single dirty, touched field `x` whose validator accepts
exactly the initial value `7`. -/
def witC4Store : Store Nat := fun q =>
  if q = ["x"] then
    { baseCell with
        value := .atom 5
        initialValue := .atom 7
        touched := true
        touchedAfterSubmit := true
        validator := fun v =>
          { isValid := decide (v = .atom 7), isValidStrict := decide (v = .atom 7) }
        validation := { isValid := false, isValidStrict := false } }
  else baseCell

/-- A form with a `List` node `l`. -/
def witC5Form : FormSt Nat :=
  { cells := fun q => if q = ["l"] then { baseCell with type := .list } else baseCell
    fieldIds := ["l"] }

/-- A store whose node `l` is an empty list. -/
def witC6Store : Store Nat := fun q =>
  if q = ["l"] then { baseCell with type := .list } else baseCell

/-- A store whose node `l` is a list with two children. -/
def witC7Store : Store Nat := fun q =>
  if q = ["l"] then
    { baseCell with type := .list, children := [["l", "r1"], ["l", "r2"]] }
  else baseCell

/-- A store of plain default fields. -/
def witC8Store : Store Nat := fun _ => baseCell

/-- A store whose node `t` is a list with one child. -/
def witC9Store : Store Nat := fun q =>
  if q = ["t"] then { baseCell with type := .list, children := [["t", "r1"]] }
  else baseCell

/-- A store whose node `m` is a map with one child. -/
def witC10Store : Store Nat := fun q =>
  if q = ["m"] then { baseCell with type := .map, children := [["m", "x"]] }
  else baseCell

/-!  ## Basic lemmas about the cell store  -/

theorem setCell_eval (σ : Store V) (p : Path) (f : FieldState V → FieldState V) (q : Path) :
    setCell σ p f q = if q = p then f (σ q) else σ q := rfl

theorem setCell_same (σ : Store V) (p : Path) (f : FieldState V → FieldState V) :
    setCell σ p f p = f (σ p) := by simp [setCell]

theorem setCell_ne (σ : Store V) (p : Path) (f : FieldState V → FieldState V)
    (q : Path) (h : q ≠ p) : setCell σ p f q = σ q := by simp [setCell, h]

theorem setCell_setCell_same (σ : Store V) (p : Path)
    (f g : FieldState V → FieldState V) :
    setCell (setCell σ p f) p g = setCell σ p (fun s => g (f s)) := by
  funext q
  by_cases h : q = p <;> simp [setCell, h]

theorem setCell_comm (σ : Store V) (p q : Path)
    (f g : FieldState V → FieldState V) (hpq : p ≠ q) :
    setCell (setCell σ p f) q g = setCell (setCell σ q g) p f := by
  funext r
  by_cases hp : r = p <;> by_cases hq : r = q
  · exact absurd (hp.symm.trans hq) hpq
  all_goals simp [setCell, hp, hq, hpq, Ne.symm hpq]

theorem forEachSet_nil (σ : Store V) : forEachSet σ [] = σ := rfl

theorem forEachSet_cons (σ : Store V) (u : Path × (FieldState V → FieldState V))
    (L : List (Path × (FieldState V → FieldState V))) :
    forEachSet σ (u :: L) = forEachSet (setCell σ u.1 u.2) L := rfl

theorem forEachSet_append (σ : Store V)
    (L1 L2 : List (Path × (FieldState V → FieldState V))) :
    forEachSet σ (L1 ++ L2) = forEachSet (forEachSet σ L1) L2 := by
  simp [forEachSet, List.foldl_append]

/-- A cell no update targets is left unchanged. -/
theorem forEachSet_not_mem (σ : Store V)
    (L : List (Path × (FieldState V → FieldState V))) (q : Path)
    (h : ∀ u ∈ L, u.1 ≠ q) : forEachSet σ L q = σ q := by
  induction L generalizing σ with
  | nil => rfl
  | cons u L ih =>
    rw [forEachSet_cons, ih _ fun v hv => h v (List.mem_cons_of_mem _ hv)]
    exact setCell_ne _ _ _ _ fun hq => (h u (List.mem_cons_self u L) hq.symm).elim

/-- A per-cell property each listed updater preserves is preserved at every
path. -/
theorem forEachSet_pres (P : FieldState V → Prop) (σ : Store V)
    (L : List (Path × (FieldState V → FieldState V))) (q : Path)
    (hL : ∀ u ∈ L, ∀ s, P s → P (u.2 s)) (h : P (σ q)) :
    P (forEachSet σ L q) := by
  induction L generalizing σ with
  | nil => exact h
  | cons u L ih =>
    rw [forEachSet_cons]
    refine ih _ (fun v hv => hL v (List.mem_cons_of_mem _ hv)) ?_
    by_cases hq : q = u.1
    · rw [hq, setCell_same]
      exact hL u (List.mem_cons_self u L) _ (hq ▸ h)
    · rwa [setCell_ne _ _ _ _ hq]

/-- Updaters that are the identity on cells satisfying `Q` leave such a cell
untouched. -/
theorem forEachSet_id_on (Q : FieldState V → Prop) (σ : Store V)
    (L : List (Path × (FieldState V → FieldState V))) (q : Path)
    (hL : ∀ u ∈ L, ∀ s, Q s → u.2 s = s) (h : Q (σ q)) :
    forEachSet σ L q = σ q := by
  induction L generalizing σ with
  | nil => rfl
  | cons u L ih =>
    rw [forEachSet_cons]
    by_cases hq : q = u.1
    · have hfix : setCell σ u.1 u.2 q = σ q := by
        rw [hq, setCell_same, hL u (List.mem_cons_self u L) _ (hq ▸ h)]
      rw [ih _ (fun v hv => hL v (List.mem_cons_of_mem _ hv)) (hfix ▸ h), hfix]
    · rw [ih _ (fun v hv => hL v (List.mem_cons_of_mem _ hv))
          ((setCell_ne σ u.1 u.2 q hq) ▸ h), setCell_ne _ _ _ _ hq]

/-- Folding one fixed idempotent updater over a list of paths applies it
(once) to every listed path. -/
theorem forEachSet_mem_idem (g : FieldState V → FieldState V)
    (hg : ∀ s, g (g s) = g s) (σ : Store V) (ids : List Path) (q : Path)
    (h : q ∈ ids) :
    forEachSet σ (ids.map fun p => (p, g)) q = g (σ q) := by
  induction ids generalizing σ with
  | nil => cases h
  | cons p ids ih =>
    rw [List.map_cons, forEachSet_cons]
    by_cases hmem : q ∈ ids
    · rw [ih _ hmem]
      by_cases hq : q = p
      · rw [hq, setCell_same, hg]
      · rw [setCell_ne _ _ _ _ hq]
    · have hq : q = p := by
        rcases List.mem_cons.mp h with h1 | h1
        · exact h1
        · exact absurd h1 hmem
      rw [forEachSet_not_mem]
      · rw [hq, setCell_same]
      · intro u hu
        rcases List.mem_map.mp hu with ⟨r, hr, rfl⟩
        intro hru
        exact hmem ((show r = q from hru) ▸ hr)

/-- Commute a `setCell` past updates that all target other paths. -/
theorem forEachSet_setCell_comm (σ : Store V) (p : Path)
    (f : FieldState V → FieldState V)
    (L : List (Path × (FieldState V → FieldState V)))
    (h : ∀ u ∈ L, u.1 ≠ p) :
    forEachSet (setCell σ p f) L = setCell (forEachSet σ L) p f := by
  induction L generalizing σ with
  | nil => rfl
  | cons u L ih =>
    rw [forEachSet_cons, forEachSet_cons,
      setCell_comm σ p u.1 f u.2 fun hc => (h u (List.mem_cons_self u L) hc.symm).elim]
    exact ih _ fun v hv => h v (List.mem_cons_of_mem _ hv)

/-!  ## Facts about the individual updaters  -/

theorem mem_addOnlyIfUnique (xs : List Path) (x : Path) : x ∈ addOnlyIfUnique xs x := by
  unfold addOnlyIfUnique
  split
  · assumption
  · simp

theorem addOnlyIfUnique_of_mem (xs : List Path) (x : Path) (h : x ∈ xs) :
    addOnlyIfUnique xs x = xs := by
  simp [addOnlyIfUnique, h]

theorem coerceUpd_type (s : FieldState V) : (coerceUpd s).type ≠ .field := by
  unfold coerceUpd
  split
  · simp
  · assumption

theorem coerceUpd_of_ne (s : FieldState V) (h : s.type ≠ .field) : coerceUpd s = s := by
  simp [coerceUpd, h]

theorem coerceUpd_type_pres (s : FieldState V) (h : s.type ≠ .field) :
    (coerceUpd s).type = s.type := by rw [coerceUpd_of_ne s h]

theorem childUpd_apply (c : Path) (s : FieldState V) (h : s.type ≠ .field) :
    childUpd c s = { s with children := addOnlyIfUnique s.children c } := by
  simp [childUpd, h]

theorem childUpd_type (c : Path) (s : FieldState V) : (childUpd c s).type = s.type := by
  unfold childUpd
  split
  · rfl
  · rfl

theorem onFieldTypeOnly_of_ne (f : FieldState V → FieldState V) (s : FieldState V)
    (h : s.type ≠ .field) : onFieldTypeOnly f s = s := by
  simp [onFieldTypeOnly, h]

theorem onFieldTypeOnly_of_field (f : FieldState V → FieldState V) (s : FieldState V)
    (h : s.type = .field) : onFieldTypeOnly f s = f s := by
  simp [onFieldTypeOnly, h]

theorem assignUpd_type (validate : Bool) (equal : Val V → Val V → Bool) (v : Val V)
    (s : FieldState V) : (assignUpd validate equal v s).type = s.type := by
  unfold assignUpd
  split
  · rfl
  · rfl

theorem initUpd_type (v : Val V) (s : FieldState V) : (initUpd v s).type = s.type := rfl

theorem setCell_type_pres (σ : Store V) (p : Path) (f : FieldState V → FieldState V)
    (hf : ∀ s, (f s).type = s.type) (q : Path) :
    (setCell σ p f q).type = (σ q).type := by
  by_cases h : q = p <;> simp [setCell, h, hf]

/-!  ## Types are preserved by the value assignment recursions  -/

theorem setValsEntry_type (validate : Bool) (equal : Val V → Val V → Bool)
    (v : Val V) : ∀ (id : Path) (σ : Store V) (q : Path),
    (setValsEntry validate equal id v σ q).type = (σ q).type := by
  induction v with
  | atom a =>
    intro id σ q
    unfold setValsEntry
    split
    · exact setCell_type_pres σ id _ (assignUpd_type validate equal _) q
    · split
      · rfl
      · rfl
  | nilObj =>
    intro id σ q
    unfold setValsEntry
    split
    · exact setCell_type_pres σ id _ (assignUpd_type validate equal _) q
    · split
      · rfl
      · rfl
  | consObj k vk rest ihk ihrest =>
    intro id σ q
    unfold setValsEntry
    split
    · exact setCell_type_pres σ id _ (assignUpd_type validate equal _) q
    · split
      · rw [ihrest, ihk]
      · rfl

theorem setValuesOp_type (d : List (Path × Val V)) (validate : Bool)
    (equal : Val V → Val V → Bool) (σ : Store V) (q : Path) :
    (setValuesOp d validate equal σ q).type = (σ q).type := by
  induction d generalizing σ with
  | nil => rfl
  | cons e d ih =>
    show (setValuesOp d validate equal (setValsEntry validate equal e.1 e.2 σ) q).type = _
    rw [ih, setValsEntry_type]

theorem setInitValsEntry_type (v : Val V) : ∀ (id : Path) (σ : Store V) (q : Path),
    (setInitValsEntry id v σ q).type = (σ q).type := by
  induction v with
  | atom a =>
    intro id σ q
    unfold setInitValsEntry
    split
    · exact setCell_type_pres σ id _ (initUpd_type _) q
    · split
      · rfl
      · rfl
  | nilObj =>
    intro id σ q
    unfold setInitValsEntry
    split
    · exact setCell_type_pres σ id _ (initUpd_type _) q
    · split
      · rfl
      · rfl
  | consObj k vk rest ihk ihrest =>
    intro id σ q
    unfold setInitValsEntry
    split
    · exact setCell_type_pres σ id _ (initUpd_type _) q
    · split
      · rw [ihrest, ihk]
      · rfl

theorem setInitialValuesOp_type (d : List (Path × Val V)) (σ : Store V) (q : Path) :
    (setInitialValuesOp d σ q).type = (σ q).type := by
  induction d generalizing σ with
  | nil => rfl
  | cons e d ih =>
    show (setInitialValuesOp d (setInitValsEntry e.1 e.2 σ) q).type = _
    rw [ih, setInitValsEntry_type]

/-!  ## The spec-modelled traversal only yields leaves  -/

theorem allFieldIdsAux_mem_field (σ : Store V) (fuel : Nat) :
    ∀ (r p : Path), p ∈ allFieldIdsAux σ fuel r → (σ p).type = .field := by
  induction fuel with
  | zero => intro r p h; cases h
  | succ fuel ih =>
    intro r p h
    unfold allFieldIdsAux at h
    split at h
    · rcases List.mem_singleton.mp h with rfl
      assumption
    · rcases List.mem_flatMap.mp h with ⟨c, _, hc⟩
      exact ih c p hc

theorem allFieldIds_mem_field (σ : Store V) (tops : List Path) (fuel : Nat)
    (p : Path) (h : p ∈ allFieldIds σ tops fuel) : (σ p).type = .field := by
  rcases List.mem_flatMap.mp h with ⟨r, _, hr⟩
  exact allFieldIdsAux_mem_field σ fuel r p hr

/-!  ## Idempotence of the registration loop  -/

theorem pairsOf_eval (σ : Store V) (ns : List String) (i : Nat) :
    forEachSet σ (pairsOf ns i) = setCell σ (nestedName (i + 1) ns) (stepFun ns i) := by
  show setCell (setCell σ _ _) _ _ = _
  rw [setCell_setCell_same]
  rfl

theorem stepFun_idem (ns : List String) (i : Nat) (s : FieldState V) :
    stepFun ns i (stepFun ns i s) = stepFun ns i s := by
  unfold stepFun
  have h1 : (coerceUpd s).type ≠ .field := coerceUpd_type s
  rw [childUpd_apply _ _ h1]
  have h2 : ({ coerceUpd s with
      children := addOnlyIfUnique (coerceUpd s).children (nestedName (i + 2) ns) } :
      FieldState V).type ≠ .field := h1
  rw [coerceUpd_of_ne _ h2, childUpd_apply _ _ h2]
  simp only []
  rw [addOnlyIfUnique_of_mem _ _ (mem_addOnlyIfUnique _ _)]

theorem pairsOf_fst (ns : List String) (i : Nat)
    (u : Path × (FieldState V → FieldState V)) (h : u ∈ pairsOf ns i) :
    u.1 = nestedName (i + 1) ns := by
  simp only [pairsOf, List.mem_cons, List.not_mem_nil, or_false] at h
  rcases h with rfl | rfl
  · rfl
  · rfl

/-- The heart of registration idempotence: running the per-prefix updates of
one name twice is the same as running them once, provided the targeted
prefix paths are pairwise distinct. -/
theorem regFold_idem (ns : List String) (is : List Nat)
    (hd : is.Pairwise fun i j => nestedName (i + 1) ns ≠ nestedName (j + 1) ns) :
    ∀ σ : Store V,
      forEachSet (forEachSet σ (is.flatMap (pairsOf ns))) (is.flatMap (pairsOf ns)) =
        forEachSet σ (is.flatMap (pairsOf ns)) := by
  induction is with
  | nil => intro σ; rfl
  | cons i rest ih =>
    intro σ
    rcases List.pairwise_cons.mp hd with ⟨hhead, htail⟩
    have hne : ∀ u ∈ rest.flatMap (pairsOf ns),
        (u : Path × (FieldState V → FieldState V)).1 ≠ nestedName (i + 1) ns := by
      intro u hu
      rcases List.mem_flatMap.mp hu with ⟨j, hj, hu2⟩
      rw [pairsOf_fst ns j u hu2]
      exact fun hc => hhead j hj hc.symm
    have hflat : (i :: rest).flatMap (pairsOf ns) =
        (pairsOf ns i : List (Path × (FieldState V → FieldState V))) ++
          rest.flatMap (pairsOf ns) := by
      simp [List.flatMap_cons]
    have e1 : forEachSet σ ((i :: rest).flatMap (pairsOf ns)) =
        forEachSet (setCell σ (nestedName (i + 1) ns) (stepFun ns i))
          (rest.flatMap (pairsOf ns)) := by
      rw [hflat, forEachSet_append, pairsOf_eval]
    have e2 : forEachSet σ ((i :: rest).flatMap (pairsOf ns)) =
        setCell (forEachSet σ (rest.flatMap (pairsOf ns)))
          (nestedName (i + 1) ns) (stepFun ns i) := by
      rw [e1, forEachSet_setCell_comm _ _ _ _ hne]
    have e3 : forEachSet (forEachSet σ ((i :: rest).flatMap (pairsOf ns))) (pairsOf ns i) =
        forEachSet σ ((i :: rest).flatMap (pairsOf ns)) := by
      rw [pairsOf_eval, e2, setCell_setCell_same]
      have hst : (fun s => stepFun ns i (stepFun ns i s) : FieldState V → FieldState V) =
          stepFun ns i := by
        funext s
        exact stepFun_idem ns i s
      rw [hst]
    have hsplit : ∀ X : Store V, forEachSet X ((i :: rest).flatMap (pairsOf ns)) =
        forEachSet (forEachSet X (pairsOf ns i)) (rest.flatMap (pairsOf ns)) := by
      intro X
      rw [hflat, forEachSet_append]
    rw [hsplit (forEachSet σ ((i :: rest).flatMap (pairsOf ns))), e3, e1]
    exact ih htail _

/-- The prefix paths registration writes for one name are pairwise
distinct (they have distinct lengths). -/
theorem regRange_pairwise (ns : List String) :
    (List.range (ns.length - 1)).Pairwise
      fun i j => nestedName (i + 1) ns ≠ nestedName (j + 1) ns := by
  refine (List.pairwise_lt_range (ns.length - 1)).imp_of_mem ?_
  intro i j hi hj hij
  have hjlt : j < ns.length - 1 := List.mem_range.mp hj
  have hjle : j + 1 ≤ ns.length := by omega
  have hile : i + 1 ≤ ns.length := by omega
  intro hc
  have hlen := congrArg List.length hc
  simp only [nestedName, take, List.length_take] at hlen
  omega

theorem regAdd_cells (σF : FormSt V) (names : List (List String)) :
    (regAdd σF names).cells = forEachSet σF.cells (names.flatMap regUpdsOfName) := rfl

theorem regAdd_fieldIds (σF : FormSt V) (names : List (List String)) :
    (regAdd σF names).fieldIds =
      σF.fieldIds ++ (names.map fun ns => ns.headD "").filter
        fun id => decide (id ∉ σF.fieldIds) := rfl

theorem regAdd_single_cells (σF : FormSt V) (ns : List String) :
    (regAdd σF [ns]).cells = forEachSet σF.cells (regUpdsOfName ns) := by
  rw [regAdd_cells]
  simp

theorem headD_mem_regAdd_single (σF : FormSt V) (ns : List String) :
    ns.headD "" ∈ (regAdd σF [ns]).fieldIds := by
  rw [regAdd_fieldIds]
  by_cases hm : ns.headD "" ∈ σF.fieldIds
  · exact List.mem_append_left _ hm
  · refine List.mem_append_right _ ?_
    have hm2 : ns.head?.getD "" ∉ σF.fieldIds := by simpa using hm
    simp [hm2]

theorem coerceUpd_type_map (s : FieldState V) (h : s.type ≠ .list) :
    (coerceUpd s).type = .map := by
  unfold coerceUpd
  split
  · rfl
  · rename_i hf
    cases ht : s.type with
    | field => exact absurd ht hf
    | map => rfl
    | list => exact absurd ht h

theorem regAdd_three_eval (σF : FormSt V) (a b c : String) :
    (regAdd σF [[a, b, c]]).cells =
      setCell (setCell σF.cells [a] (stepFun [a, b, c] 0)) [a, b] (stepFun [a, b, c] 1) := by
  rw [regAdd_single_cells]
  have hr : List.range (([a, b, c] : List String).length - 1) = [0, 1] := rfl
  show forEachSet σF.cells ((List.range (([a, b, c] : List String).length - 1)).flatMap
    (pairsOf [a, b, c])) = _
  rw [hr]
  have hfl : ([0, 1] : List Nat).flatMap (pairsOf [a, b, c]) =
      (pairsOf [a, b, c] 0 : List (Path × (FieldState V → FieldState V))) ++
        pairsOf [a, b, c] 1 := by
    simp [List.flatMap_cons]
  rw [hfl, forEachSet_append, pairsOf_eval, pairsOf_eval]
  rfl

theorem onFieldTypeOnly_idem (f : FieldState V → FieldState V)
    (hft : ∀ s, (f s).type = s.type) (hf : ∀ s, f (f s) = f s) (s : FieldState V) :
    onFieldTypeOnly f (onFieldTypeOnly f s) = onFieldTypeOnly f s := by
  by_cases h : s.type = .field
  · rw [onFieldTypeOnly_of_field _ _ h,
      onFieldTypeOnly_of_field _ _ (by rw [hft]; exact h), hf]
  · rw [onFieldTypeOnly_of_ne _ _ h, onFieldTypeOnly_of_ne _ _ h]

theorem touchAllUpd_type (s : FieldState V) : (touchAllUpd s).type = s.type := rfl

theorem touchAllUpd_idem (s : FieldState V) :
    touchAllUpd (touchAllUpd s) = touchAllUpd s := rfl

theorem resetUpd_type (s : FieldState V) : (resetUpd s).type = s.type := rfl

theorem resetUpd_idem (s : FieldState V) : resetUpd (resetUpd s) = resetUpd s := rfl

theorem setAllToTouchedOp_mem (σ : Store V) (ids : List Path) (p : Path) (hp : p ∈ ids) :
    setAllToTouchedOp ids σ p = onFieldTypeOnly touchAllUpd (σ p) :=
  forEachSet_mem_idem (onFieldTypeOnly touchAllUpd)
    (onFieldTypeOnly_idem touchAllUpd touchAllUpd_type touchAllUpd_idem) σ ids p hp

theorem resetFieldsOp_mem (σ : Store V) (ids : List Path) (p : Path) (hp : p ∈ ids) :
    resetFieldsOp ids σ p = onFieldTypeOnly resetUpd (σ p) :=
  forEachSet_mem_idem (onFieldTypeOnly resetUpd)
    (onFieldTypeOnly_idem resetUpd resetUpd_type resetUpd_idem) σ ids p hp

/-!  ## The claims  -/

/-- C1 counterexample: the claim says that after registering `"a.b.c"` the
cell at `a` always has variant `Map`, for every form; but on a form whose
node `a` was already created as a `List`, registration leaves it a `List`
(first nesting wins), so it does not become a `Map`. -/
theorem C1_nested_registration_cex :
    ((regAdd cexC1Form [["a", "b", "c"]]).cells ["a"]).type ≠ FieldType.map := by decide

/-- C1 (amended): for every form and nested name `"a.b.c"` such that neither
the node at `a` nor the node at `a.b` is already a `List`, after register is
called with that name the cell at `a` has variant `Map` with `a.b` among its
children, the cell at `a.b` has variant `Map` with `a.b.c` among its
children, and the form's `fieldIds` contains the top-level segment `a`. -/
theorem C1_nested_registration_amended (σF : FormSt V) (a b c : String)
    (h1 : (σF.cells [a]).type ≠ .list) (h2 : (σF.cells [a, b]).type ≠ .list) :
    ((regAdd σF [[a, b, c]]).cells [a]).type = .map ∧
    [a, b] ∈ ((regAdd σF [[a, b, c]]).cells [a]).children ∧
    ((regAdd σF [[a, b, c]]).cells [a, b]).type = .map ∧
    [a, b, c] ∈ ((regAdd σF [[a, b, c]]).cells [a, b]).children ∧
    a ∈ (regAdd σF [[a, b, c]]).fieldIds := by
  have hne : ([a] : Path) ≠ [a, b] := by simp
  have e := regAdd_three_eval σF a b c
  have eA : (regAdd σF [[a, b, c]]).cells [a] =
      childUpd [a, b] (coerceUpd (σF.cells [a])) := by
    rw [e, setCell_ne _ _ _ _ hne, setCell_same]
    rfl
  have eAB : (regAdd σF [[a, b, c]]).cells [a, b] =
      childUpd [a, b, c] (coerceUpd (σF.cells [a, b])) := by
    rw [e, setCell_same, setCell_ne _ _ _ _ hne.symm]
    rfl
  refine ⟨?_, ?_, ?_, ?_, ?_⟩
  · rw [eA, childUpd_type]
    exact coerceUpd_type_map _ h1
  · rw [eA, childUpd_apply _ _ (coerceUpd_type _)]
    exact mem_addOnlyIfUnique _ _
  · rw [eAB, childUpd_type]
    exact coerceUpd_type_map _ h2
  · rw [eAB, childUpd_apply _ _ (coerceUpd_type _)]
    exact mem_addOnlyIfUnique _ _
  · exact headD_mem_regAdd_single σF [a, b, c]

/-- C1 witness: the amended claim evaluated on a pristine form. -/
theorem C1_nested_registration_amended_witness :
    ((witC1Form.cells ["a"]).type ≠ FieldType.list ∧
      (witC1Form.cells ["a", "b"]).type ≠ FieldType.list) ∧
    (((regAdd witC1Form [["a", "b", "c"]]).cells ["a"]).type = .map ∧
      ["a", "b"] ∈ ((regAdd witC1Form [["a", "b", "c"]]).cells ["a"]).children ∧
      ((regAdd witC1Form [["a", "b", "c"]]).cells ["a", "b"]).type = .map ∧
      ["a", "b", "c"] ∈ ((regAdd witC1Form [["a", "b", "c"]]).cells ["a", "b"]).children ∧
      "a" ∈ (regAdd witC1Form [["a", "b", "c"]]).fieldIds) :=
  ⟨⟨by decide, by decide⟩,
    C1_nested_registration_amended witC1Form "a" "b" "c" (by decide) (by decide)⟩

/-- C2: Registration is idempotent: for every form state, calling register
twice with the same (possibly nested) name yields the same children lists and
the same `fieldIds` as calling it once — the whole form state is unchanged by
the second call, so no duplicate entries are created and the order of
previously present entries is untouched. -/
theorem C2_register_twice_idempotent (σF : FormSt V) (ns : List String) :
    regAdd (regAdd σF [ns]) [ns] = regAdd σF [ns] := by
  ext1
  · rw [regAdd_single_cells, regAdd_single_cells]
    exact regFold_idem ns (List.range (ns.length - 1)) (regRange_pairwise ns) σF.cells
  · rw [regAdd_fieldIds (regAdd σF [ns])]
    have hmem : ns.head?.getD "" ∈ (regAdd σF [ns]).fieldIds := by
      simpa using headD_mem_regAdd_single σF ns
    simp [hmem]

/-- C3: for every form whose aggregate validity flag selected by
configuration (`isValid` or `isValidStrict`) is false, submit invokes the
invalid-submit callback exactly once with the bag, never invokes the regular
submit callback, and marks every leaf field touched and
touched-after-submit. -/
theorem C3_invalid_submit (prop : IsValidProp) (σ : Store V) (tops : List Path)
    (fuel : Nat) (h : selectValidProp prop (formValidation σ tops fuel) = false) :
    (submitOp prop σ tops fuel).invalidCalls = [formValidation σ tops fuel] ∧
    (submitOp prop σ tops fuel).validCalls = [] ∧
    ∀ p ∈ allFieldIds σ tops fuel,
      ((submitOp prop σ tops fuel).store p).touched = true ∧
      ((submitOp prop σ tops fuel).store p).touchedAfterSubmit = true := by
  have hsub : submitOp prop σ tops fuel =
      { store := setAllToTouchedOp (allFieldIds σ tops fuel) σ
        invalidCalls := [formValidation σ tops fuel]
        validCalls := [] } := by
    unfold submitOp
    simp [h]
  rw [hsub]
  refine ⟨rfl, rfl, ?_⟩
  intro p hp
  dsimp only
  have hfield := allFieldIds_mem_field σ tops fuel p hp
  rw [show setAllToTouchedOp (allFieldIds σ tops fuel) σ p =
      onFieldTypeOnly touchAllUpd (σ p) from
    setAllToTouchedOp_mem σ (allFieldIds σ tops fuel) p hp]
  rw [onFieldTypeOnly_of_field _ _ hfield]
  exact ⟨rfl, rfl⟩

/-- C3 witness: a form with a single invalid leaf `x`, submitted under the
`isValid` configuration. -/
theorem C3_invalid_submit_witness :
    selectValidProp IsValidProp.isValid (formValidation witC3Store [["x"]] 1) = false ∧
    ((submitOp IsValidProp.isValid witC3Store [["x"]] 1).invalidCalls =
        [formValidation witC3Store [["x"]] 1] ∧
      (submitOp IsValidProp.isValid witC3Store [["x"]] 1).validCalls = [] ∧
      ∀ p ∈ allFieldIds witC3Store [["x"]] 1,
        ((submitOp IsValidProp.isValid witC3Store [["x"]] 1).store p).touched = true ∧
        ((submitOp IsValidProp.isValid witC3Store [["x"]] 1).store p).touchedAfterSubmit =
          true) :=
  ⟨by decide, C3_invalid_submit IsValidProp.isValid witC3Store [["x"]] 1 (by decide)⟩

/-- C4: after `reset()` completes, every leaf field cell of the form (every
path produced by the `allFieldIds` traversal) has `value` equal to its
`initialValue`, `touched` and `touchedAfterSubmit` false, and `validation`
equal to the field's validator run on the `initialValue`. -/
theorem C4_reset_restores_initial (σ : Store V) (tops : List Path) (fuel : Nat)
    (p : Path) (hp : p ∈ allFieldIds σ tops fuel) :
    (resetFieldsOp (allFieldIds σ tops fuel) σ p).value =
      (resetFieldsOp (allFieldIds σ tops fuel) σ p).initialValue ∧
    (resetFieldsOp (allFieldIds σ tops fuel) σ p).touched = false ∧
    (resetFieldsOp (allFieldIds σ tops fuel) σ p).touchedAfterSubmit = false ∧
    (resetFieldsOp (allFieldIds σ tops fuel) σ p).validation =
      (resetFieldsOp (allFieldIds σ tops fuel) σ p).validator
        ((resetFieldsOp (allFieldIds σ tops fuel) σ p).initialValue) := by
  have hfield := allFieldIds_mem_field σ tops fuel p hp
  rw [resetFieldsOp_mem σ (allFieldIds σ tops fuel) p hp,
    onFieldTypeOnly_of_field _ _ hfield]
  exact ⟨rfl, rfl, rfl, rfl⟩

/-- C4 witness: a dirty, touched, invalid leaf `x` whose validator accepts
exactly its initial value. -/
theorem C4_reset_restores_initial_witness :
    ["x"] ∈ allFieldIds witC4Store [["x"]] 1 ∧
    ((resetFieldsOp (allFieldIds witC4Store [["x"]] 1) witC4Store ["x"]).value =
        (resetFieldsOp (allFieldIds witC4Store [["x"]] 1) witC4Store ["x"]).initialValue ∧
      (resetFieldsOp (allFieldIds witC4Store [["x"]] 1) witC4Store ["x"]).touched = false ∧
      (resetFieldsOp (allFieldIds witC4Store [["x"]] 1) witC4Store
          ["x"]).touchedAfterSubmit = false ∧
      (resetFieldsOp (allFieldIds witC4Store [["x"]] 1) witC4Store ["x"]).validation =
        (resetFieldsOp (allFieldIds witC4Store [["x"]] 1) witC4Store ["x"]).validator
          ((resetFieldsOp (allFieldIds witC4Store [["x"]] 1) witC4Store
            ["x"]).initialValue)) :=
  ⟨by decide, C4_reset_restores_initial witC4Store [["x"]] 1 ["x"] (by decide)⟩

theorem length_swapChildren (l : List Path) (a b : Nat) :
    (swapChildren l a b).length = l.length := by
  simp [swapChildren]

theorem swapChildren_getElem? (l : List Path) (a b i : Nat) :
    (swapChildren l a b)[i]? = (l[i]?).map
      fun x => if i = a then (l[b]?).getD x else if i = b then (l[a]?).getD x else x := by
  simp [swapChildren]

theorem swapChildren_getElem?_left (l : List Path) (a b : Nat)
    (ha : a < l.length) (hb : b < l.length) :
    (swapChildren l a b)[a]? = l[b]? := by
  rw [swapChildren_getElem?, List.getElem?_eq_getElem ha, List.getElem?_eq_getElem hb]
  simp

theorem swapChildren_getElem?_right (l : List Path) (a b : Nat)
    (ha : a < l.length) (hb : b < l.length) :
    (swapChildren l a b)[b]? = l[a]? := by
  rw [swapChildren_getElem?, List.getElem?_eq_getElem hb, List.getElem?_eq_getElem ha]
  by_cases hba : b = a
  · subst hba
    simp
  · simp [hba]

theorem swapChildren_getElem?_other (l : List Path) (a b i : Nat)
    (hia : i ≠ a) (hib : i ≠ b) :
    (swapChildren l a b)[i]? = l[i]? := by
  rw [swapChildren_getElem?]
  simp [hia, hib]

theorem swapChildren_involution (l : List Path) (a b : Nat)
    (ha : a < l.length) (hb : b < l.length) :
    swapChildren (swapChildren l a b) a b = l := by
  have hl := length_swapChildren l a b
  apply List.ext_getElem?
  intro i
  by_cases hia : i = a
  · rw [hia, swapChildren_getElem?_left _ a b (by omega) (by omega),
      swapChildren_getElem?_right l a b ha hb]
  · by_cases hib : i = b
    · rw [hib, swapChildren_getElem?_right _ a b (by omega) (by omega),
        swapChildren_getElem?_left l a b ha hb]
    · rw [swapChildren_getElem?_other _ a b i hia hib,
        swapChildren_getElem?_other l a b i hia hib]

theorem listSwap_at (σ : Store V) (lp : Path) (a b : Nat) :
    listSwap lp a b σ lp = { σ lp with children := swapChildren (σ lp).children a b } := by
  unfold listSwap
  rw [setCell_same]

/-- C7: for every list node and valid indices `a`, `b` into its children,
`swap(a, b)` applied twice restores the whole store (involution); a single
swap touches no other path, preserves every non-`children` component of the
list node's cell, and only exchanges positions `a` and `b` of its children,
leaving all other positions unchanged. -/
theorem C7_swap_involution (σ : Store V) (lp : Path) (a b : Nat)
    (ha : a < (σ lp).children.length) (hb : b < (σ lp).children.length) :
    listSwap lp a b (listSwap lp a b σ) = σ ∧
    (∀ q, q ≠ lp → listSwap lp a b σ q = σ q) ∧
    (listSwap lp a b σ lp).type = (σ lp).type ∧
    (listSwap lp a b σ lp).value = (σ lp).value ∧
    (listSwap lp a b σ lp).validation = (σ lp).validation ∧
    (listSwap lp a b σ lp).touched = (σ lp).touched ∧
    ((listSwap lp a b σ lp).children)[a]? = (σ lp).children[b]? ∧
    ((listSwap lp a b σ lp).children)[b]? = (σ lp).children[a]? ∧
    ∀ i, i ≠ a → i ≠ b → ((listSwap lp a b σ lp).children)[i]? = (σ lp).children[i]? := by
  refine ⟨?_, ?_, ?_, ?_, ?_, ?_, ?_, ?_, ?_⟩
  · funext q
    by_cases hq : q = lp
    · have h1 : listSwap lp a b σ lp =
          { σ lp with children := swapChildren (σ lp).children a b } := listSwap_at σ lp a b
      have h2 : listSwap lp a b (listSwap lp a b σ) lp =
          { listSwap lp a b σ lp with
              children := swapChildren (listSwap lp a b σ lp).children a b } :=
        listSwap_at _ lp a b
      rw [hq, h2, h1]
      have h3 : ({ σ lp with children := swapChildren (σ lp).children a b } :
          FieldState V).children = swapChildren (σ lp).children a b := rfl
      rw [h3, swapChildren_involution _ a b ha hb]
    · unfold listSwap
      rw [setCell_ne _ _ _ _ hq, setCell_ne _ _ _ _ hq]
  · intro q hq
    unfold listSwap
    rw [setCell_ne _ _ _ _ hq]
  · rw [listSwap_at]
  · rw [listSwap_at]
  · rw [listSwap_at]
  · rw [listSwap_at]
  · rw [listSwap_at]
    exact swapChildren_getElem?_left _ a b ha hb
  · rw [listSwap_at]
    exact swapChildren_getElem?_right _ a b ha hb
  · intro i hia hib
    rw [listSwap_at]
    exact swapChildren_getElem?_other _ a b i hia hib

/-- C7 witness: a two-element list node. -/
theorem C7_swap_involution_witness :
    (0 < (witC7Store ["l"]).children.length ∧ 1 < (witC7Store ["l"]).children.length) ∧
    (listSwap ["l"] 0 1 (listSwap ["l"] 0 1 witC7Store) = witC7Store ∧
      (∀ q, q ≠ ["l"] → listSwap ["l"] 0 1 witC7Store q = witC7Store q) ∧
      (listSwap ["l"] 0 1 witC7Store ["l"]).type = (witC7Store ["l"]).type ∧
      (listSwap ["l"] 0 1 witC7Store ["l"]).value = (witC7Store ["l"]).value ∧
      (listSwap ["l"] 0 1 witC7Store ["l"]).validation = (witC7Store ["l"]).validation ∧
      (listSwap ["l"] 0 1 witC7Store ["l"]).touched = (witC7Store ["l"]).touched ∧
      ((listSwap ["l"] 0 1 witC7Store ["l"]).children)[0]? =
        (witC7Store ["l"]).children[1]? ∧
      ((listSwap ["l"] 0 1 witC7Store ["l"]).children)[1]? =
        (witC7Store ["l"]).children[0]? ∧
      ∀ i, i ≠ 0 → i ≠ 1 →
        ((listSwap ["l"] 0 1 witC7Store ["l"]).children)[i]? =
          (witC7Store ["l"]).children[i]?) :=
  ⟨⟨by decide, by decide⟩,
    C7_swap_involution witC7Store ["l"] 0 1 (by decide) (by decide)⟩

/-- C8: with `validate: false`, `setValues` assigns the value and leaves the
field's `validation` exactly as before (the validator is not re-run: the
stored validation component is carried over unchanged).  `alwaysFalse` is the
default `equal` option. -/
theorem C8_setValues_no_validate (σ : Store V) (p : Path) (v : Val V)
    (h : (σ p).type = .field) :
    (setValuesOp [(p, v)] false alwaysFalse σ p).value = v ∧
    (setValuesOp [(p, v)] false alwaysFalse σ p).validation = (σ p).validation := by
  show (setValsEntry false alwaysFalse p v σ p).value = v ∧
    (setValsEntry false alwaysFalse p v σ p).validation = (σ p).validation
  unfold setValsEntry
  rw [if_pos h, setCell_same]
  unfold assignUpd alwaysFalse
  exact ⟨rfl, rfl⟩

/-- C8 witness. -/
theorem C8_setValues_no_validate_witness :
    (witC8Store ["x"]).type = FieldType.field ∧
    ((setValuesOp [(["x"], Val.atom 1)] false alwaysFalse witC8Store ["x"]).value =
        Val.atom 1 ∧
      (setValuesOp [(["x"], Val.atom 1)] false alwaysFalse witC8Store ["x"]).validation =
        (witC8Store ["x"]).validation) :=
  ⟨by decide, C8_setValues_no_validate witC8Store ["x"] (Val.atom 1) (by decide)⟩

theorem setValsEntry_list_id (validate : Bool) (equal : Val V → Val V → Bool)
    (σ : Store V) (p : Path) (v : Val V) (h : (σ p).type = .list) :
    setValsEntry validate equal p v σ = σ := by
  unfold setValsEntry
  rw [h]
  simp

theorem setInitValsEntry_list_id (σ : Store V) (p : Path) (v : Val V)
    (h : (σ p).type = .list) : setInitValsEntry p v σ = σ := by
  unfold setInitValsEntry
  rw [h]
  simp

theorem setValuesOp_cons (e : Path × Val V) (d : List (Path × Val V)) (validate : Bool)
    (equal : Val V → Val V → Bool) (σ : Store V) :
    setValuesOp (e :: d) validate equal σ =
      setValuesOp d validate equal (setValsEntry validate equal e.1 e.2 σ) := rfl

theorem setInitialValuesOp_cons (e : Path × Val V) (d : List (Path × Val V)) (σ : Store V) :
    setInitialValuesOp (e :: d) σ = setInitialValuesOp d (setInitValsEntry e.1 e.2 σ) := rfl

theorem setValuesOp_skip_list (σ : Store V) (p : Path) (v : Val V)
    (d1 d2 : List (Path × Val V)) (validate : Bool) (equal : Val V → Val V → Bool)
    (h : (σ p).type = .list) :
    setValuesOp (d1 ++ (p, v) :: d2) validate equal σ =
      setValuesOp (d1 ++ d2) validate equal σ := by
  induction d1 generalizing σ with
  | nil =>
    rw [List.nil_append, List.nil_append, setValuesOp_cons,
      setValsEntry_list_id validate equal σ p v h]
  | cons e d1 ih =>
    rw [List.cons_append, List.cons_append, setValuesOp_cons, setValuesOp_cons]
    exact ih _ (by rw [setValsEntry_type]; exact h)

theorem setInitialValuesOp_skip_list (σ : Store V) (p : Path) (v : Val V)
    (d1 d2 : List (Path × Val V)) (h : (σ p).type = .list) :
    setInitialValuesOp (d1 ++ (p, v) :: d2) σ = setInitialValuesOp (d1 ++ d2) σ := by
  induction d1 generalizing σ with
  | nil =>
    rw [List.nil_append, List.nil_append, setInitialValuesOp_cons,
      setInitValsEntry_list_id σ p v h]
  | cons e d1 ih =>
    rw [List.cons_append, List.cons_append, setInitialValuesOp_cons,
      setInitialValuesOp_cons]
    exact ih _ (by rw [setInitValsEntry_type]; exact h)

/-- C9: a `setValues` (or `setInitialValues`) entry targeting a path whose
cell has variant `List` is silently ignored — the single-entry update leaves
the entire store unchanged (so the list node and all of its descendants keep
their state and no error is raised) — and the remaining entries of the same
call are still applied exactly as if the list entry were absent. -/
theorem C9_list_assignment_ignored (σ : Store V) (p : Path) (v : Val V)
    (d1 d2 : List (Path × Val V)) (validate : Bool) (equal : Val V → Val V → Bool)
    (h : (σ p).type = .list) :
    setValsEntry validate equal p v σ = σ ∧
    setInitValsEntry p v σ = σ ∧
    setValuesOp (d1 ++ (p, v) :: d2) validate equal σ =
      setValuesOp (d1 ++ d2) validate equal σ ∧
    setInitialValuesOp (d1 ++ (p, v) :: d2) σ = setInitialValuesOp (d1 ++ d2) σ :=
  ⟨setValsEntry_list_id validate equal σ p v h,
    setInitValsEntry_list_id σ p v h,
    setValuesOp_skip_list σ p v d1 d2 validate equal h,
    setInitialValuesOp_skip_list σ p v d1 d2 h⟩

/-- C9 witness: list node `t`, with a field entry `x` alongside. -/
theorem C9_list_assignment_ignored_witness :
    (witC9Store ["t"]).type = FieldType.list ∧
    (setValsEntry true alwaysFalse ["t"] (Val.atom 5) witC9Store = witC9Store ∧
      setInitValsEntry ["t"] (Val.atom 5) witC9Store = witC9Store ∧
      setValuesOp ([(["x"], Val.atom 1)] ++ (["t"], Val.atom 5) :: []) true alwaysFalse
          witC9Store =
        setValuesOp ([(["x"], Val.atom 1)] ++ []) true alwaysFalse witC9Store ∧
      setInitialValuesOp ([(["x"], Val.atom 1)] ++ (["t"], Val.atom 5) :: []) witC9Store =
        setInitialValuesOp ([(["x"], Val.atom 1)] ++ []) witC9Store) :=
  ⟨by decide,
    C9_list_assignment_ignored witC9Store ["t"] (Val.atom 5) [(["x"], Val.atom 1)] []
      true alwaysFalse (by decide)⟩

theorem forEachSet_onFieldTypeOnly_skip (σ : Store V)
    (L : List (Path × (FieldState V → FieldState V)))
    (hL : ∀ u ∈ L, ∃ f, u.2 = onFieldTypeOnly f) (q : Path)
    (h : (σ q).type ≠ .field) : forEachSet σ L q = σ q := by
  refine forEachSet_id_on (fun s => s.type ≠ .field) σ L q ?_ h
  intro u hu s hs
  rcases hL u hu with ⟨f, hf⟩
  rw [hf, onFieldTypeOnly_of_ne _ _ hs]

/-- C10: every bulk per-field operation of the form — `setTouched`,
`resetTouched`, `setAllToTouched`, `reset` and `revalidate` — leaves any cell
whose variant is `Map` or `List` completely unchanged: their updaters are
guarded by `onFieldTypeOnly`, so structural nodes' children and type are
never altered by these operations. -/
theorem C10_bulk_ops_skip_structural (σ : Store V) (q : Path)
    (d : List (Path × Bool)) (ids1 ids2 ids3 ids4 : List Path)
    (h : (σ q).type ≠ .field) :
    setTouchedOp d σ q = σ q ∧
    resetTouchedOp ids1 σ q = σ q ∧
    setAllToTouchedOp ids2 σ q = σ q ∧
    resetFieldsOp ids3 σ q = σ q ∧
    revalidateFieldsOp ids4 σ q = σ q := by
  refine ⟨?_, ?_, ?_, ?_, ?_⟩
  · refine forEachSet_onFieldTypeOnly_skip σ _ ?_ q h
    intro u hu
    rcases List.mem_map.mp hu with ⟨e, _, rfl⟩
    exact ⟨touchUpd e.2, rfl⟩
  · refine forEachSet_onFieldTypeOnly_skip σ _ ?_ q h
    intro u hu
    rcases List.mem_map.mp hu with ⟨e, _, rfl⟩
    exact ⟨untouchUpd, rfl⟩
  · refine forEachSet_onFieldTypeOnly_skip σ _ ?_ q h
    intro u hu
    rcases List.mem_map.mp hu with ⟨e, _, rfl⟩
    exact ⟨touchAllUpd, rfl⟩
  · refine forEachSet_onFieldTypeOnly_skip σ _ ?_ q h
    intro u hu
    rcases List.mem_map.mp hu with ⟨e, _, rfl⟩
    exact ⟨resetUpd, rfl⟩
  · refine forEachSet_onFieldTypeOnly_skip σ _ ?_ q h
    intro u hu
    rcases List.mem_map.mp hu with ⟨e, _, rfl⟩
    exact ⟨revalUpd, rfl⟩

/-- C10 witness: a map node `m` targeted by every bulk operation. -/
theorem C10_bulk_ops_skip_structural_witness :
    (witC10Store ["m"]).type ≠ FieldType.field ∧
    (setTouchedOp [(["m"], true)] witC10Store ["m"] = witC10Store ["m"] ∧
      resetTouchedOp [["m"]] witC10Store ["m"] = witC10Store ["m"] ∧
      setAllToTouchedOp [["m"]] witC10Store ["m"] = witC10Store ["m"] ∧
      resetFieldsOp [["m"]] witC10Store ["m"] = witC10Store ["m"] ∧
      revalidateFieldsOp [["m"]] witC10Store ["m"] = witC10Store ["m"]) :=
  ⟨by decide,
    C10_bulk_ops_skip_structural witC10Store ["m"] [(["m"], true)] [["m"]] [["m"]]
      [["m"]] [["m"]] (by decide)⟩

/-!  ## C5 support: every operation preserves a node's structural status  -/

theorem regUpds_updaters (names : List (List String))
    (u : Path × (FieldState V → FieldState V)) (hu : u ∈ names.flatMap regUpdsOfName) :
    u.2 = coerceUpd ∨ ∃ c, u.2 = childUpd c := by
  rcases List.mem_flatMap.mp hu with ⟨ns, _, hu2⟩
  unfold regUpdsOfName at hu2
  rcases List.mem_flatMap.mp hu2 with ⟨i, _, hu3⟩
  simp only [pairsOf, List.mem_cons, List.not_mem_nil, or_false] at hu3
  rcases hu3 with rfl | rfl
  · exact Or.inl rfl
  · exact Or.inr ⟨_, rfl⟩

theorem regAddCells_nf (σ : Store V) (names : List (List String)) (q : Path)
    (h : (σ q).type ≠ .field) :
    (forEachSet σ (names.flatMap regUpdsOfName) q).type ≠ .field := by
  refine forEachSet_pres (fun s => s.type ≠ .field) σ _ q ?_ h
  intro u hu s hs
  rcases regUpds_updaters names u hu with h1 | ⟨c, h1⟩
  · rw [h1]
    exact coerceUpd_type s
  · rw [h1, childUpd_type]
    exact hs

theorem regAddCells_list (σ : Store V) (names : List (List String)) (q : Path)
    (h : (σ q).type = .list) :
    (forEachSet σ (names.flatMap regUpdsOfName) q).type = .list := by
  refine forEachSet_pres (fun s => s.type = .list) σ _ q ?_ h
  intro u hu s hs
  rcases regUpds_updaters names u hu with h1 | ⟨c, h1⟩
  · rw [h1, coerceUpd_of_ne s (fun hc => by rw [hs] at hc; exact FieldType.noConfusion hc)]
    exact hs
  · rw [h1, childUpd_type]
    exact hs

/-- `setCell` with a type-preserving updater keeps non-`field` status. -/
theorem setCell_nf (σ : Store V) (r : Path) (f : FieldState V → FieldState V)
    (hf : ∀ s, (f s).type = s.type) (q : Path) (h : (σ q).type ≠ .field) :
    (setCell σ r f q).type ≠ .field := by
  rw [setCell_type_pres σ r f hf q]
  exact h

theorem regRemoveCells_type (names : List Path) (σ : Store V) (q : Path) :
    (regRemoveCells names σ q).type = (σ q).type := by
  induction names generalizing σ with
  | nil => rfl
  | cons n names ih =>
    have hstep : regRemoveCells (n :: names) σ = regRemoveCells names
        (if 2 ≤ n.length then
          setCell σ (dropRight 1 n)
            (fun s => { s with children := s.children.filter fun c => decide (c ≠ n) })
        else σ) := rfl
    rw [hstep, ih]
    split
    · refine setCell_type_pres σ _ _ ?_ q
      intro s
      rfl
    · rfl

theorem forEachSet_type_eq (σ : Store V)
    (L : List (Path × (FieldState V → FieldState V))) (q : Path)
    (hL : ∀ u ∈ L, ∀ s : FieldState V, (u.2 s).type = s.type) :
    (forEachSet σ L q).type = (σ q).type :=
  forEachSet_pres (fun s => s.type = (σ q).type) σ L q
    (fun u hu s hs => by
      show (u.2 s).type = (σ q).type
      rw [hL u hu s]
      exact hs) rfl

theorem setErrorsOp_type (errs : List (Path × ValidationResult)) (σ : Store V) (q : Path) :
    (setErrorsOp errs σ q).type = (σ q).type := by
  refine forEachSet_type_eq σ _ q ?_
  intro u hu s
  rcases List.mem_map.mp hu with ⟨e, _, rfl⟩
  rfl

theorem onFieldTypeOnly_nf (f : FieldState V → FieldState V) (s : FieldState V)
    (h : s.type ≠ .field) : (onFieldTypeOnly f s).type ≠ .field := by
  rw [onFieldTypeOnly_of_ne f s h]
  exact h

theorem clearCellsOp_skip (dflt : FieldState V) (σ : Store V) (tops : List Path)
    (fuel : Nat) (q : Path) (h : (σ q).type ≠ .field) :
    clearCellsOp dflt (allFieldIds σ tops fuel) σ q = σ q := by
  refine forEachSet_not_mem σ _ q ?_
  intro u hu
  rcases List.mem_map.mp hu with ⟨r, hr, rfl⟩
  intro hc
  exact h (hc ▸ allFieldIds_mem_field σ tops fuel r hr)

theorem submitOp_eq (prop : IsValidProp) (σ : Store V) (tops : List Path) (fuel : Nat) :
    submitOp prop σ tops fuel =
      if selectValidProp prop (formValidation σ tops fuel) then
        { store := σ, invalidCalls := []
          validCalls := [formValidation σ tops fuel] }
      else
        { store := setAllToTouchedOp (allFieldIds σ tops fuel) σ
          invalidCalls := [formValidation σ tops fuel], validCalls := [] } := rfl

theorem setAllToTouchedOp_skip (σ : Store V) (ids : List Path) (q : Path)
    (h : (σ q).type ≠ .field) : setAllToTouchedOp ids σ q = σ q := by
  refine forEachSet_onFieldTypeOnly_skip σ _ ?_ q h
  intro u hu
  rcases List.mem_map.mp hu with ⟨r, _, rfl⟩
  exact ⟨touchAllUpd, rfl⟩

theorem submitOp_store_nf (prop : IsValidProp) (σ : Store V) (tops : List Path)
    (fuel : Nat) (q : Path) (h : (σ q).type ≠ .field) :
    (((submitOp prop σ tops fuel).store) q).type ≠ .field := by
  rw [submitOp_eq]
  split
  · exact h
  · show ((setAllToTouchedOp (allFieldIds σ tops fuel) σ) q).type ≠ .field
    rw [setAllToTouchedOp_skip σ _ q h]
    exact h

theorem applyOp_type_nf (dflt : FieldState V) (op : Op V)
    (σF : FormSt V) (p : Path) (h : (σF.cells p).type ≠ .field) :
    ((applyOp dflt op σF).cells p).type ≠ .field := by
  have honly : ∀ (g : FieldState V → FieldState V) (ids : List Path),
      ((forEachSet σF.cells (ids.map fun r => (r, onFieldTypeOnly g))) p).type ≠ .field := by
    intro g ids
    have hskip : (forEachSet σF.cells (ids.map fun r => (r, onFieldTypeOnly g))) p =
        σF.cells p := by
      refine forEachSet_onFieldTypeOnly_skip σF.cells _ ?_ p h
      intro u hu
      rcases List.mem_map.mp hu with ⟨r, _, rfl⟩
      exact ⟨g, rfl⟩
    rw [hskip]
    exact h
  cases op with
  | opRegAdd names => exact regAddCells_nf σF.cells names p h
  | opRegRemove names =>
    show (regRemoveCells names σF.cells p).type ≠ .field
    rw [regRemoveCells_type]
    exact h
  | opSetValues d validate equal =>
    show (setValuesOp d validate equal σF.cells p).type ≠ .field
    rw [setValuesOp_type]
    exact h
  | opSetInitialValues d =>
    show (setInitialValuesOp d σF.cells p).type ≠ .field
    rw [setInitialValuesOp_type]
    exact h
  | opSetErrors errs =>
    show (setErrorsOp errs σF.cells p).type ≠ .field
    rw [setErrorsOp_type]
    exact h
  | opSetTouched d =>
    show ((forEachSet σF.cells (d.map fun e => (e.1, onFieldTypeOnly (touchUpd e.2)))) p).type
      ≠ .field
    refine forEachSet_pres (fun s => s.type ≠ .field) σF.cells _ p ?_ h
    intro u hu s hs
    rcases List.mem_map.mp hu with ⟨e, _, rfl⟩
    exact onFieldTypeOnly_nf _ s hs
  | opResetTouched fuel => exact honly untouchUpd _
  | opSetAllToTouched fuel => exact honly touchAllUpd _
  | opReset fuel => exact honly resetUpd _
  | opRevalidate ids fuel => exact honly revalUpd _
  | opClear fuel =>
    show ((clearCellsOp dflt (allFieldIds σF.cells (topPaths σF.fieldIds) fuel)
        σF.cells) p).type ≠ .field
    rw [clearCellsOp_skip dflt σF.cells _ fuel p h]
    exact h
  | opSubmit prop fuel => exact submitOp_store_nf prop σF.cells _ fuel p h
  | opListMount name =>
    show ((setCell (regAdd σF [name]).cells name fun s => { s with type := .list }) p).type
      ≠ .field
    by_cases hp : p = name
    · rw [hp, setCell_same]
      intro hc
      exact FieldType.noConfusion hc
    · rw [setCell_ne _ _ _ _ hp]
      exact regAddCells_nf σF.cells [name] p h
  | opListAdd lp n =>
    refine setCell_nf σF.cells lp _ ?_ p h
    intro s
    rfl
  | opListAddAt lp i n =>
    refine setCell_nf σF.cells lp _ ?_ p h
    intro s
    rfl
  | opListRemove lp i =>
    refine setCell_nf σF.cells lp _ ?_ p h
    intro s
    rfl
  | opListRemoveAll lp =>
    refine setCell_nf σF.cells lp _ ?_ p h
    intro s
    rfl
  | opListSwap lp a b =>
    refine setCell_nf σF.cells lp _ ?_ p h
    intro s
    rfl
  | opListMove lp a b =>
    refine setCell_nf σF.cells lp _ ?_ p h
    intro s
    rfl

theorem opsFold_type_nf (dflt : FieldState V)
    (ops : List (Op V)) (σF : FormSt V) (p : Path)
    (h : (σF.cells p).type ≠ .field) :
    ((ops.foldl (fun s op => applyOp dflt op s) σF).cells p).type ≠ .field := by
  induction ops generalizing σF with
  | nil => exact h
  | cons op ops ih => exact ih (applyOp dflt op σF) (applyOp_type_nf dflt op σF p h)

/-- C5: a path's variant never goes back to `Field`: under any sequence of
form operations, a cell whose variant is `Map` or `List` (type ≠ `field`)
keeps a structural variant — so the change away from `Field` (made by the
first nested registration, or by a list mount) can happen at most once and is
never reverted; moreover registration leaves a node that is already a `List`
a `List` (only a plain `Field` is coerced, to `Map`). -/
theorem C5_variant_one_way (dflt : FieldState V) (σF : FormSt V) (p : Path)
    (ops : List (Op V)) (names : List (List String)) (_hd : dflt.type = .field) :
    ((σF.cells p).type ≠ .field →
      ((ops.foldl (fun s op => applyOp dflt op s) σF).cells p).type ≠ .field) ∧
    ((σF.cells p).type = .list →
      ((applyOp dflt (Op.opRegAdd names) σF).cells p).type = .list) :=
  ⟨fun h => opsFold_type_nf dflt ops σF p h,
    fun h => regAddCells_list σF.cells names p h⟩

/-- C5 witness: a list node `l` survives a `setValues`, a `reset` and a
re-registration. -/
theorem C5_variant_one_way_witness :
    baseCell.type = FieldType.field ∧
    ((([Op.opSetValues [(["l"], Val.atom 1)] true alwaysFalse,
        Op.opReset 2] : List (Op Nat)).foldl
      (fun s op => applyOp baseCell op s) witC5Form).cells ["l"]).type ≠ .field ∧
    ((applyOp baseCell (Op.opRegAdd [["l", "x"]]) witC5Form).cells ["l"]).type = .list :=
  ⟨by decide,
    (C5_variant_one_way baseCell witC5Form ["l"]
      [Op.opSetValues [(["l"], Val.atom 1)] true alwaysFalse, Op.opReset 2]
      [["l", "x"]] (by decide)).1 (by decide),
    (C5_variant_one_way baseCell witC5Form ["l"]
      [Op.opSetValues [(["l"], Val.atom 1)] true alwaysFalse, Op.opReset 2]
      [["l", "x"]] (by decide)).2 (by decide)⟩

/-!  ## C6: list identity recycling  -/

theorem generateNewName_cons (lp : Path) (r : String) (rest : List String) (c : Nat)
    (hr : r ≠ "") : generateNewName lp (r :: rest) c = (lp ++ [r], rest, c) := by
  show (if r = "" then (lp ++ [uidStr c], rest, c + 1) else (lp ++ [r], rest, c)) = _
  rw [if_neg hr]

theorem uidStr_ne_empty (c : Nat) : uidStr c ≠ "" := by
  intro hc
  have hl := congrArg String.length hc
  rw [uidStr, String.length_append] at hl
  have h4 : ("uid-" : String).length = 4 := rfl
  have h0 : ("" : String).length = 0 := rfl
  omega

/-- C6 counterexample: the claim says that whenever the pool of released
identifiers is non-empty, `generateNewName` returns an element of the pool
combined as `<listPath>.<id>`.  With pool `[""]` (an empty released
identifier, as released by removing a child whose name ends in a dot), the
source's `reusedName || uid()` treats the reused name as falsy and
synthesizes a fresh id instead: the returned name does not combine the pool's
only element `""`. -/
theorem C6_pool_reuse_cex :
    (generateNewName ["l"] [""] 0).1 ≠ ["l"] ++ [""] := by
  decide

/-- C6 (amended): whenever the per-list pool of released identifiers is
non-empty, `generateNewName` removes its first (insertion-ordered) element,
and provided that element is a non-empty string — which every identifier
released from a generated child name is — returns it combined as
`<listPath>.<id>` without synthesizing a fresh id; in particular `add()`
followed by `remove(index)` of the added row followed by another `add()`
reuses the released identifier (the second `add` returns the same child name
as the first). -/
theorem C6_pool_reuse_amended (lp : Path) (pool : List String) (c : Nat)
    (r : String) (rest : List String) (σ : Store V)
    (hpool : pool = r :: rest) (hr : r ≠ "") (hch : (σ lp).children = []) :
    generateNewName lp pool c = (lp ++ [r], rest, c) ∧
    (listAdd lp
        (listRemove lp 0 (listAdd lp σ [] c).2.1 (listAdd lp σ [] c).2.2.1).1
        (listRemove lp 0 (listAdd lp σ [] c).2.1 (listAdd lp σ [] c).2.2.1).2
        (listAdd lp σ [] c).2.2.2).1 = (listAdd lp σ [] c).1 := by
  constructor
  · rw [hpool]
    exact generateNewName_cons lp r rest c hr
  · have hA2 : (listAdd lp σ [] c).2.1 =
        setCell σ lp (fun s => { s with children := s.children ++ [lp ++ [uidStr c]] }) :=
      rfl
    have hch2 : ((listAdd lp σ [] c).2.1 lp).children = [lp ++ [uidStr c]] := by
      rw [hA2, setCell_same]
      show (σ lp).children ++ [lp ++ [uidStr c]] = _
      rw [hch]
      rfl
    have hpool2 : (listRemove lp 0 (listAdd lp σ [] c).2.1 (listAdd lp σ [] c).2.2.1).2 =
        [uidStr c] := by
      show (match ((listAdd lp σ [] c).2.1 lp).children[0]? with
        | some n => poolAdd (listAdd lp σ [] c).2.2.1 (lastSeg n)
        | none => (listAdd lp σ [] c).2.2.1) = [uidStr c]
      rw [hch2]
      show poolAdd [] (lastSeg (lp ++ [uidStr c])) = [uidStr c]
      rw [show lastSeg (lp ++ [uidStr c]) = uidStr c from List.getLastD_concat _ _ _]
      rfl
    show (generateNewName lp
      (listRemove lp 0 (listAdd lp σ [] c).2.1 (listAdd lp σ [] c).2.2.1).2
      (listAdd lp σ [] c).2.2.2).1 = lp ++ [uidStr c]
    rw [hpool2, generateNewName_cons lp (uidStr c) [] _ (uidStr_ne_empty c)]

/-- C6 witness: a non-empty pool holding the released identifier `r1`, and
the add/remove/add scenario on an empty list node. -/
theorem C6_pool_reuse_amended_witness :
    (["r1"] = "r1" :: ([] : List String) ∧ "r1" ≠ "" ∧ (witC6Store ["l"]).children = []) ∧
    (generateNewName ["l"] ["r1"] 5 = (["l"] ++ ["r1"], [], 5) ∧
      (listAdd ["l"]
          (listRemove ["l"] 0 (listAdd ["l"] witC6Store [] 5).2.1
            (listAdd ["l"] witC6Store [] 5).2.2.1).1
          (listRemove ["l"] 0 (listAdd ["l"] witC6Store [] 5).2.1
            (listAdd ["l"] witC6Store [] 5).2.2.1).2
          (listAdd ["l"] witC6Store [] 5).2.2.2).1 = (listAdd ["l"] witC6Store [] 5).1) :=
  ⟨⟨rfl, by decide, by decide⟩,
    C6_pool_reuse_amended ["l"] ["r1"] 5 "r1" [] witC6Store rfl (by decide) (by decide)⟩

end Forms



